import Mathlib

/-!
Verification of the ace client (ace.py): a shallow embedding of its
tokenizer, operation compiler, chain builder, submission handling,
polling loop and result reporter, with theorems about the properties
the specification states for them.
-/

namespace Ace

/-- The double-quote character. -/
def dquo : Char := '"'

/-- The single-quote character, written via its code point. -/
def squo : Char := Char.ofNat 39

/-- A character belongs to the quote class of the two regexes in
split_grass_command (both regexes use the class of double and single
quote). -/
def isQuote (c : Char) : Bool := c = dquo || c = squo

/-- Number of quote-class characters in a character list. -/
def qcount (l : List Char) : Nat := l.countP isQuote

/-- Core of the regex lookahead split used by SPACE_MATCHER and
EQUALS_MATCHER: the regex splits at every separator character whose
suffix holds an even number of quote characters.  Returns the first
part and the list of remaining parts (the split result is always
non-empty). -/
def lasplit (p : Char → Bool) : List Char → List Char × List (List Char)
  | [] => ([], [])
  | c :: rest =>
    if p c = true ∧ qcount rest % 2 = 0 then
      ([], (lasplit p rest).1 :: (lasplit p rest).2)
    else
      (c :: (lasplit p rest).1, (lasplit p rest).2)

/-- Split a string at separator characters followed by an even number
of quote characters, as re.split does with the lookahead regex. -/
def strSplit (p : Char → Bool) (s : String) : List String :=
  ((lasplit p s.data).1 :: (lasplit p s.data).2).map String.mk

/-- SPACE_MATCHER.split of ace.py line 494. -/
def spaceSplit (s : String) : List String := strSplit (fun c => c = ' ') s

/-- EQUALS_MATCHER.split of ace.py line 497. -/
def eqSplit (s : String) : List String := strSplit (fun c => c = '=') s

/-- Python str.strip with a single character argument: removes every
leading and every trailing occurrence of that character. -/
def pyStripL (c : Char) (l : List Char) : List Char :=
  ((l.dropWhile (fun x => x = c)).reverse.dropWhile (fun x => x = c)).reverse

/-- Python str.strip lifted to strings. -/
def pyStrip (c : Char) (s : String) : String := String.mk (pyStripL c s.data)

/-- The run-time faults the token-rewriting loop of split_grass_command
can raise: unpacking the equals split into two names fails
(ValueError), or indexing the empty value fails (IndexError). -/
inductive TokenFault
  | unpackFault
  | indexFault
deriving DecidableEq

/-- The body of the loop of split_grass_command (ace.py lines 495-499)
for one token: if the token holds an equals sign and a quote, split it
at the unquoted equals sign into exactly two parts, and when the value
starts with its own last character, strip all double quotes and then
all single quotes from both ends of the value. -/
def fixToken (t : String) : Except TokenFault String :=
  if ('=' ∈ t.data ∧ (squo ∈ t.data ∨ dquo ∈ t.data)) then
    match eqSplit t with
    | [par, val] =>
      match val.data.getLast? with
      | none => .error .indexFault
      | some last =>
        if val.data.head? = some last then
          .ok (par ++ "=" ++ pyStrip squo (pyStrip dquo val))
        else .ok t
    | _ => .error .unpackFault
  else .ok t

/-- split_grass_command (ace.py lines 481-500): split the command at
unquoted spaces and rewrite each token through the quote-stripping
loop; a fault in the loop aborts the call. -/
def split_grass_command (s : String) : Except TokenFault (List String) :=
  (spaceSplit s).mapM fixToken

/-- Count of separator positions the lookahead split matches: characters
satisfying p with an even number of quote characters after them.  For
the equals regex this counts the unquoted equals signs of a token. -/
def countSep (p : Char → Bool) : List Char → Nat
  | [] => 0
  | c :: rest =>
    (if p c = true ∧ qcount rest % 2 = 0 then 1 else 0) + countSep p rest

/-- Number of unquoted equals signs of a token, in the sense of
EQUALS_MATCHER: equals signs followed by an even number of quote
characters. -/
def numUnquotedEq (t : String) : Nat := countSep (fun c => c = '=') t.data

/-- Joining a token list with single spaces, as the idempotence
property of the specification describes. -/
def joinSpace : List String → String
  | [] => ""
  | [t] => t
  | t :: u :: ts => t ++ " " ++ joinSpace (u :: ts)

/-- Removal of exactly one layer from both ends of a value: the
rewriting the specification sentence about quoted option values
describes.  Stated spec-side, to be compared with what fixToken does. -/
def stripOneLayer (val : String) : String :=
  String.mk ((val.data.drop 1).dropLast)

/-- Substring containment, used to state which pieces of text an error
message carries. -/
def containsStr (needle hay : String) : Prop :=
  List.IsInfix needle.data hay.data

instance (n h : String) : Decidable (containsStr n h) := by
  unfold containsStr; infer_instance

/-- One step of the per-operation execution log of a job status
snapshot: captured stdout text and the stderr line list. -/
structure StepLog where
  stdout : String
  stderr : List String
deriving DecidableEq

/-- A parsed job status snapshot, as the polling loop and the result
reporter read it from a poll response body. -/
structure Snapshot where
  status : String
  message : String
  process_log : List StepLog
  urls : List (String × String)
deriving DecidableEq

/-- The terminal-status test of ace.py line 584. -/
def isTerminal (st : String) : Bool :=
  st = "finished" || st = "error" || st = "terminated"

/-- Faults of the polling loop model: a poll response body that does
not parse as a snapshot re-raises (ace.py lines 587-588), and a script
that runs out of responses stands for the loop never reaching a
terminal status (the real loop would poll forever). -/
inductive PollFault
  | parseFault
  | scriptExhausted
deriving DecidableEq

/-- The polling loop of ace.py lines 575-588 over a scripted sequence
of poll responses (none models an unparseable body): issue one GET per
response, stop at the first terminal snapshot, and return how many
polls were issued together with that snapshot. -/
def pollLoop : List (Option Snapshot) → Except PollFault (Nat × Snapshot)
  | [] => .error .scriptExhausted
  | none :: _ => .error .parseFault
  | some snap :: rest =>
    if isTerminal snap.status then .ok (1, snap)
    else
      match pollLoop rest with
      | .ok p => .ok (p.1 + 1, p.2)
      | .error e => .error e

/-- A POST response as the submission step reads it: the HTTP status
code, the raw body text, and the outcome of simplejson.loads on that
text (none when parsing raises; a flat field map is enough to model
the message lookup). -/
structure PostResponse where
  status_code : Nat
  text : String
  parsed : Option (List (String × String))

/-- Python membership plus lookup on a parsed JSON object. -/
def lookupField (fields : List (String × String)) (k : String) : Option String :=
  (fields.find? (fun kv => kv.1 = k)).map (fun kv => kv.2)

/-- The single-quote character as a one-character string. -/
def squos : String := String.mk [squo]

/-- The msg piece built from the message field when it is there
(ace.py lines 558-559). -/
def msgPart : Option String → String
  | some m => ": " ++ m
  | none => ""

/-- The msg variable of ace.py lines 555-561: from the message field
of the parsed body, or the raw body text when parsing raises. -/
def submissionMsg : Option (List (String × String)) → String → String
  | some fields, _ => msgPart (lookupField fields "message")
  | none, text => text

/-- The fatal-submission-error classification of ace.py lines 554-562:
for a status code outside 200/201 return the text handed to
grass.fatal, built from an optional message field of the parsed body,
or from the raw body text when parsing fails; otherwise no fatal
error. -/
def submissionFatal (url : String) (r : PostResponse) : Option String :=
  if r.status_code = 200 ∨ r.status_code = 201 then none
  else
    some ("ERROR posting to url " ++ squos ++ url ++ squos ++
      submissionMsg r.parsed r.text)

/-- An operation description: the parsed JSON dict an operation
compiles to, modelled as a flat field map. -/
abbrev Proc := List (String × String)

/-- The chain-append step of ace.py lines 533-536: a compiled operation
is appended to the chain list unless it is absent or empty (Python
truthiness of the optional dict). -/
def appendProc (chain : List Proc) (p : Option Proc) : List Proc :=
  match p with
  | none => chain
  | some d => if d = [] then chain else chain ++ [d]

/-- Building the process chain list by appending the compile results of
all commands in order onto the fresh chain. -/
def buildChain (ops : List (Option Proc)) : List Proc :=
  ops.foldl appendProc []

/-- Outcome of running the external executable: its exit code and its
captured standard output and standard error. -/
structure ExecResult where
  returncode : Int
  stdout : String
  stderr : String

/-- The faults create_actinia_process can raise: the help flag is
rejected, the executable exited non-zero (with the message text), or
its standard output did not parse. -/
inductive CompileFault
  | helpNotAllowed (msg : String)
  | execFailed (msg : String)
  | parseFailed
deriving DecidableEq

/-- Python str of a list of strings, as used in the two error messages
of create_actinia_process. -/
def listStr (cmd : List String) : String :=
  "[" ++ String.intercalate ", " (cmd.map (fun t => squos ++ t ++ squos)) ++ "]"

/-- The token sequence after the machine-output flag has been appended
when absent (ace.py lines 623-624). -/
def withJson (command : List String) : List String :=
  if "--json" ∈ command then command else command ++ ["--json"]

/-- create_actinia_process (ace.py lines 608-641), with the external
executable and the JSON parser passed in as functions: an empty token
sequence is a skip, a help flag raises, a non-zero exit raises with the
captured streams in the message, and an unparseable standard output
re-raises. -/
def create_actinia_process (run : List String → ExecResult)
    (parseJson : String → Option Proc) (command : List String) :
    Except CompileFault (Option Proc) :=
  if command = [] then .ok none
  else if "--help" ∈ command then
    .error (.helpNotAllowed
      ("--help is not allowed inside grass_command: " ++ listStr command))
  else
    let r := run (withJson command)
    if r.returncode ≠ 0 then
      .error (.execFailed
        ("Error while executing GRASS command: " ++ listStr (withJson command) ++
         ". \n" ++ "\n" ++ r.stdout ++ "\n" ++ r.stderr ++ "\n"))
    else
      match parseJson r.stdout with
      | some p => .ok (some p)
      | none => .error .parseFailed

/-- One printed item of the result reporter. -/
inductive Output
  | raw (s : String)
  | stdoutLine (s : String)
  | stderrDump (l : List String)
  | urlsDump (u : List (String × String))
deriving DecidableEq

/-- The process-log walk of ace.py lines 598-602: per step print a
non-empty stdout, then index the first stderr element (an empty stderr
list makes this indexing fault, flagged by the boolean) and print the
stderr list when that element is non-empty. -/
def walkLog : List StepLog → List Output × Bool
  | [] => ([], false)
  | e :: rest =>
    match e.stderr with
    | [] => ((if e.stdout ≠ "" then [Output.stdoutLine e.stdout] else []), true)
    | s0 :: _ =>
      ((if e.stdout ≠ "" then [Output.stdoutLine e.stdout] else []) ++
        (if s0 ≠ "" then [Output.stderrDump e.stderr] else []) ++
        (walkLog rest).1,
       (walkLog rest).2)

/-- The result reporting of ace.py lines 592-605 on the final poll
response: on HTTP 200 with terminal status terminated print the raw
body; on 200 otherwise walk the log (the boolean records an indexing
fault, which prevents everything after it) and then print the urls
mapping; on non-200 print the raw body. -/
def reportResult (code : Nat) (text : String) (data : Snapshot) :
    List Output × Bool :=
  if code = 200 then
    if data.status = "terminated" then ([Output.raw text], false)
    else
      if (walkLog data.process_log).2 then ((walkLog data.process_log).1, true)
      else ((walkLog data.process_log).1 ++ [Output.urlsDump data.urls], false)
  else ([Output.raw text], false)

/-- The outputs the specification describes for one step of the log
walk, used to state the reporter theorems. -/
def stepOutputs (e : StepLog) : List Output :=
  (if e.stdout ≠ "" then [Output.stdoutLine e.stdout] else []) ++
  (match e.stderr with
   | [] => []
   | s0 :: _ => if s0 ≠ "" then [Output.stderrDump e.stderr] else [])

/-- The concatenated step outputs of a whole log. -/
def logOutputs : List StepLog → List Output
  | [] => []
  | e :: rest => stepOutputs e ++ logOutputs rest

/-- A running snapshot used in the scripted polling scenarios. -/
def runSnap : Snapshot :=
  { status := "running", message := "mapcalc step", process_log := [], urls := [] }

/-- A finished snapshot used in the scripted polling scenarios. -/
def finSnap : Snapshot :=
  { status := "finished", message := "done", process_log := [], urls := [] }

/-- An error snapshot used in the scripted polling scenarios. -/
def errSnap : Snapshot :=
  { status := "error", message := "failed", process_log := [], urls := [] }

/-! Helper lemmas about the lookahead split. -/

theorem strMk_data (s : String) : String.mk s.data = s := rfl

theorem lasplit_cons_sep (p : Char → Bool) (c : Char) (rest : List Char)
    (hp : p c = true) (he : qcount rest % 2 = 0) :
    lasplit p (c :: rest) = ([], (lasplit p rest).1 :: (lasplit p rest).2) := by
  rw [lasplit, if_pos ⟨hp, he⟩]

theorem lasplit_cons_nosep (p : Char → Bool) (c : Char) (rest : List Char)
    (h : ¬(p c = true ∧ qcount rest % 2 = 0)) :
    lasplit p (c :: rest) = (c :: (lasplit p rest).1, (lasplit p rest).2) := by
  rw [lasplit, if_neg h]

theorem lasplit_append_nosep (p : Char → Bool) (w rest : List Char)
    (h : ∀ c ∈ w, p c = false) :
    lasplit p (w ++ rest) = (w ++ (lasplit p rest).1, (lasplit p rest).2) := by
  induction w with
  | nil => simp
  | cons c w ih =>
    have hc : p c = false := h c (by simp)
    rw [List.cons_append, lasplit_cons_nosep]
    · rw [ih (fun x hx => h x (by simp [hx]))]
      simp
    · simp [hc]

theorem lasplit_append_noquote_odd (p : Char → Bool) (w rest : List Char)
    (hq : ∀ c ∈ w, isQuote c = false) (hodd : qcount rest % 2 = 1) :
    lasplit p (w ++ rest) = (w ++ (lasplit p rest).1, (lasplit p rest).2) := by
  induction w with
  | nil => simp
  | cons c w ih =>
    have hodd2 : qcount (w ++ rest) % 2 = 1 := by
      have hw : qcount w = 0 := by
        refine List.countP_eq_zero.mpr ?_
        intro x hx
        simp [hq x (by simp [hx])]
      rw [qcount, List.countP_append]
      rw [qcount] at hw hodd
      omega
    rw [List.cons_append, lasplit_cons_nosep]
    · rw [ih (fun x hx => hq x (by simp [hx]))]
      simp
    · rintro ⟨-, heven⟩
      omega

theorem lasplit_tail_length (p : Char → Bool) (l : List Char) :
    (lasplit p l).2.length = countSep p l := by
  induction l with
  | nil => rfl
  | cons c rest ih =>
    by_cases h : p c = true ∧ qcount rest % 2 = 0
    · rw [lasplit_cons_sep p c rest h.1 h.2, countSep, if_pos h]
      simp [ih]
      omega
    · rw [lasplit_cons_nosep p c rest h, countSep, if_neg h]
      simp [ih]

theorem eqSplit_length (t : String) :
    (eqSplit t).length = numUnquotedEq t + 1 := by
  rw [eqSplit, strSplit, numUnquotedEq]
  simp [lasplit_tail_length]

/-! Helper lemmas about python strip. -/

theorem dropWhile_ne (c : Char) (l : List Char) (h : ∀ x ∈ l, x ≠ c) :
    l.dropWhile (fun x => x = c) = l := by
  cases l with
  | nil => rfl
  | cons a l =>
    rw [List.dropWhile_cons, if_neg]
    simp [h a (by simp)]

theorem pyStripL_id (c : Char) (l : List Char) (h : ∀ x ∈ l, x ≠ c) :
    pyStripL c l = l := by
  rw [pyStripL, dropWhile_ne c l h, dropWhile_ne, List.reverse_reverse]
  intro x hx
  exact h x (List.mem_reverse.mp hx)

theorem pyStripL_wrap (c : Char) (core : List Char)
    (hne : ∀ x ∈ core, x ≠ c) :
    pyStripL c (c :: (core ++ [c])) = core := by
  rw [pyStripL]
  rw [List.dropWhile_cons, if_pos (by simp)]
  cases core with
  | nil => simp
  | cons d core =>
    rw [List.cons_append, List.dropWhile_cons, if_neg (by simp [hne d (by simp)])]
    have hrev : (d :: (core ++ [c])).reverse = c :: (core.reverse ++ [d]) := by simp
    rw [hrev, List.dropWhile_cons, if_pos (by simp)]
    rw [dropWhile_ne]
    · simp
    · intro x hx
      rcases List.mem_append.mp hx with hx | hx
      · exact hne x (by simp [List.mem_reverse.mp hx])
      · simp only [List.mem_singleton] at hx
        subst hx
        exact hne x (by simp)

theorem isQuote_cases (q : Char) (h : isQuote q = true) : q = dquo ∨ q = squo := by
  simpa [isQuote] using h

theorem qcount_zero_of_noquote (l : List Char) (h : ∀ c ∈ l, isQuote c = false) :
    qcount l = 0 := by
  refine List.countP_eq_zero.mpr ?_
  intro x hx
  simp [h x hx]

theorem eqSplit_wrapped (key core : String) (q : Char)
    (hq : isQuote q = true)
    (hkeyEq : ∀ c ∈ key.data, c ≠ '=')
    (hcore : ∀ c ∈ core.data, isQuote c = false) :
    eqSplit (key ++ "=" ++ String.mk [q] ++ core ++ String.mk [q]) =
      [key, String.mk (q :: (core.data ++ [q]))] := by
  have hqne : q ≠ '=' := by
    rcases isQuote_cases q hq with h | h <;> subst h <;> decide
  have hdata : (key ++ "=" ++ String.mk [q] ++ core ++ String.mk [q]).data =
      key.data ++ ('=' :: q :: (core.data ++ [q])) := by
    simp [String.data_append]
  have hc0 : qcount core.data = 0 := qcount_zero_of_noquote core.data hcore
  have hq1 : qcount [q] = 1 := by simp [qcount, List.countP_cons, hq]
  have h5 : lasplit (fun c => c = '=') [q] = ([q], []) := by
    rw [lasplit_cons_nosep]
    · rfl
    · rintro ⟨hpq, -⟩
      exact hqne (by simpa using hpq)
  have h4 : lasplit (fun c => c = '=') (core.data ++ [q]) = (core.data ++ [q], []) := by
    rw [lasplit_append_noquote_odd _ _ _ hcore (by rw [hq1]), h5]
  have h3 : lasplit (fun c => c = '=') (q :: (core.data ++ [q])) =
      (q :: (core.data ++ [q]), []) := by
    rw [lasplit_cons_nosep, h4]
    rintro ⟨hpq, -⟩
    exact hqne (by simpa using hpq)
  have h2 : lasplit (fun c => c = '=') ('=' :: q :: (core.data ++ [q])) =
      ([], [q :: (core.data ++ [q])]) := by
    rw [lasplit_cons_sep, h3]
    · simp
    · rw [qcount, List.countP_cons, List.countP_append]
      rw [qcount] at hc0 hq1
      simp [hq, hc0, hq1]
  have h1 : lasplit (fun c => c = '=') (key.data ++ ('=' :: q :: (core.data ++ [q]))) =
      (key.data, [q :: (core.data ++ [q])]) := by
    rw [lasplit_append_nosep _ _ _ (fun c hc => by simp [hkeyEq c hc]), h2]
    simp
  rw [eqSplit, strSplit, hdata, h1]
  simp [strMk_data]

/-- C3 (amended): when a token has the shape key=value with the value
wrapped in one layer of a quote character, the key free of equals signs
and quotes, and the interior of the value free of quote characters, the
token rewrite of split_grass_command strips exactly that one layer and
rewrites the token as key=strippedValue.  (With further quote
characters at the ends of the interior, Python strip removes all of
them of both kinds, see the counterexample.) -/
theorem fixToken_strips_one_layer (key core : String) (q : Char)
    (hq : isQuote q = true)
    (hkeyEq : ∀ c ∈ key.data, c ≠ '=')
    (hcore : ∀ c ∈ core.data, isQuote c = false) :
    fixToken (key ++ "=" ++ String.mk [q] ++ core ++ String.mk [q]) =
      .ok (key ++ "=" ++ core) := by
  have hsplit := eqSplit_wrapped key core q hq hkeyEq hcore
  have hdata : (key ++ "=" ++ String.mk [q] ++ core ++ String.mk [q]).data =
      key.data ++ ('=' :: q :: (core.data ++ [q])) := by
    simp [String.data_append]
  have hguard : '=' ∈ (key ++ "=" ++ String.mk [q] ++ core ++ String.mk [q]).data ∧
      (squo ∈ (key ++ "=" ++ String.mk [q] ++ core ++ String.mk [q]).data ∨
       dquo ∈ (key ++ "=" ++ String.mk [q] ++ core ++ String.mk [q]).data) := by
    rw [hdata]
    refine ⟨by simp, ?_⟩
    rcases isQuote_cases q hq with h | h
    · exact Or.inr (by subst h; simp)
    · exact Or.inl (by subst h; simp)
  have hlast : (q :: (core.data ++ [q])).getLast? = some q := by
    rw [← List.cons_append]
    exact List.getLast?_concat _
  have hcorene : ∀ x ∈ core.data, x ≠ dquo ∧ x ≠ squo := by
    intro x hx
    constructor <;> intro hcon <;> subst hcon
    · simpa [isQuote] using hcore _ hx
    · simpa [isQuote] using hcore _ hx
  have hstrip : pyStrip squo (pyStrip dquo (String.mk (q :: (core.data ++ [q])))) = core := by
    rcases isQuote_cases q hq with h | h <;> subst h
    · have h1 : pyStrip dquo (String.mk (dquo :: (core.data ++ [dquo]))) = core := by
        rw [pyStrip]
        rw [show (String.mk (dquo :: (core.data ++ [dquo]))).data =
              dquo :: (core.data ++ [dquo]) from rfl]
        rw [pyStripL_wrap dquo core.data (fun x hx => (hcorene x hx).1)]
      rw [h1, pyStrip, pyStripL_id squo core.data (fun x hx => (hcorene x hx).2)]
    · have h1 : pyStrip dquo (String.mk (squo :: (core.data ++ [squo]))) =
          String.mk (squo :: (core.data ++ [squo])) := by
        rw [pyStrip]
        rw [show (String.mk (squo :: (core.data ++ [squo]))).data =
              squo :: (core.data ++ [squo]) from rfl]
        rw [pyStripL_id]
        intro x hx
        rcases List.mem_cons.mp hx with hx | hx
        · subst hx; decide
        · rcases List.mem_append.mp hx with hx | hx
          · exact (hcorene x hx).1
          · simp only [List.mem_singleton] at hx; subst hx; decide
      rw [h1, pyStrip]
      rw [show (String.mk (squo :: (core.data ++ [squo]))).data =
            squo :: (core.data ++ [squo]) from rfl]
      rw [pyStripL_wrap squo core.data (fun x hx => (hcorene x hx).2)]
  rw [fixToken, if_pos hguard, hsplit]
  simp only [hlast]
  rw [if_pos (by rfl)]
  rw [hstrip]

/-- C3 counterexample: the token a=""b"" holds an equals sign and a
quote, its value ""b"" has identical first and last quote characters,
yet the rewrite does not strip exactly one layer: the code yields a=b
while a one-layer strip would yield a="b". -/
theorem fixToken_one_layer_cex :
    eqSplit "a=\"\"b\"\"" = ["a", "\"\"b\"\""] ∧
    ("\"\"b\"\"" : String).data.head? = some dquo ∧
    ("\"\"b\"\"" : String).data.getLast? = some dquo ∧
    fixToken "a=\"\"b\"\"" = .ok "a=b" ∧
    "a=" ++ stripOneLayer "\"\"b\"\"" = "a=\"b\"" ∧
    ("a=b" : String) ≠ "a=\"b\"" :=
  ⟨rfl, rfl, rfl, rfl, rfl, by decide⟩

/-- C3 witness: the token opt="a b" is rewritten to opt=a b. -/
theorem fixToken_strips_one_layer_witness :
    isQuote dquo = true ∧
    fixToken ("opt" ++ "=" ++ String.mk [dquo] ++ "a b" ++ String.mk [dquo]) =
      .ok ("opt" ++ "=" ++ "a b") :=
  ⟨by decide, fixToken_strips_one_layer "opt" "a b" dquo (by decide) (by decide)
    (by decide)⟩

/-- C5: the two tokenizer examples of the specification: the quoted
mapcalc expression keeps its internal spaces and loses its quotes, and
the plain g.region command splits at every space. -/
theorem split_grass_command_examples :
    split_grass_command "r.mapcalc expression=\"a = b + 1\"" =
      .ok ["r.mapcalc", "expression=a = b + 1"] ∧
    split_grass_command "g.region raster=elevation -p" =
      .ok ["g.region", "raster=elevation", "-p"] :=
  ⟨rfl, rfl⟩

theorem map_mk_map_data (l : List String) :
    (l.map String.data).map String.mk = l := by
  rw [List.map_map]
  have h : String.mk ∘ String.data = id := funext strMk_data
  rw [h, List.map_id]

theorem qcount_joinSpace (ts : List String)
    (hev : ∀ t ∈ ts, qcount t.data % 2 = 0) :
    qcount (joinSpace ts).data % 2 = 0 := by
  induction ts with
  | nil => simp [joinSpace, qcount]
  | cons t ts ih =>
    cases ts with
    | nil => simpa [joinSpace] using hev t (by simp)
    | cons u ts =>
      have hdata : (joinSpace (t :: u :: ts)).data =
          t.data ++ (' ' :: (joinSpace (u :: ts)).data) := by
        rw [joinSpace]
        simp [String.data_append]
      rw [hdata, qcount, List.countP_append, List.countP_cons]
      have h1 := hev t (by simp)
      have h2 := ih (fun x hx => hev x (by simp [hx]))
      rw [qcount] at h1 h2
      have hsp : isQuote ' ' = false := by decide
      simp only [hsp, Bool.false_eq_true, if_false]
      omega

theorem lasplit_joinSpace (t : String) (ts : List String)
    (hsp : ∀ u ∈ t :: ts, ∀ c ∈ u.data, c ≠ ' ')
    (hev : ∀ u ∈ t :: ts, qcount u.data % 2 = 0) :
    lasplit (fun c => c = ' ') (joinSpace (t :: ts)).data =
      (t.data, ts.map String.data) := by
  induction ts generalizing t with
  | nil =>
    have hjoin : joinSpace [t] = t := rfl
    rw [hjoin]
    have h := lasplit_append_nosep (fun c => c = ' ') t.data []
      (fun c hc => by simp [hsp t (by simp) c hc])
    simpa [lasplit] using h
  | cons u ts ih =>
    have hdata : (joinSpace (t :: u :: ts)).data =
        t.data ++ (' ' :: (joinSpace (u :: ts)).data) := by
      rw [joinSpace]
      simp [String.data_append]
    rw [hdata]
    rw [lasplit_append_nosep _ _ _ (fun c hc => by simp [hsp t (by simp) c hc])]
    rw [lasplit_cons_sep _ _ _ (by simp)
      (qcount_joinSpace (u :: ts) (fun x hx => hev x (by simp [hx])))]
    rw [ih u (fun x hx => hsp x (by simp [hx])) (fun x hx => hev x (by simp [hx]))]
    simp

theorem spaceSplit_joinSpace (t : String) (ts : List String)
    (hsp : ∀ u ∈ t :: ts, ∀ c ∈ u.data, c ≠ ' ')
    (hev : ∀ u ∈ t :: ts, qcount u.data % 2 = 0) :
    spaceSplit (joinSpace (t :: ts)) = t :: ts := by
  rw [spaceSplit, strSplit, lasplit_joinSpace t ts hsp hev]
  show (t.data :: ts.map String.data).map String.mk = t :: ts
  rw [List.map_cons, map_mk_map_data, strMk_data]

theorem ok_bind {ε α β : Type} (a : α) (k : α → Except ε β) :
    (Except.ok a >>= k) = k a := rfl

theorem error_bind {ε α β : Type} (e : ε) (k : α → Except ε β) :
    ((Except.error e : Except ε α) >>= k) = Except.error e := rfl

theorem mapM_ok_of_id {ε : Type} (f : String → Except ε String)
    (ts : List String) (h : ∀ t ∈ ts, f t = .ok t) : ts.mapM f = .ok ts := by
  induction ts with
  | nil => rfl
  | cons t ts ih =>
    rw [List.mapM_cons, h t (by simp), ih (fun x hx => h x (by simp [hx]))]
    rfl

theorem mapM_ok_length {ε : Type} (f : String → Except ε String) :
    ∀ (l res : List String), l.mapM f = .ok res → res.length = l.length := by
  intro l
  induction l with
  | nil =>
    intro res h
    rw [List.mapM_nil] at h
    cases h
    rfl
  | cons a l ih =>
    intro res h
    rw [List.mapM_cons] at h
    cases hfa : f a with
    | error e =>
      rw [hfa, error_bind] at h
      cases h
    | ok b =>
      rw [hfa, ok_bind] at h
      cases hl : l.mapM f with
      | error e =>
        rw [hl, error_bind] at h
        cases h
      | ok bs =>
        rw [hl, ok_bind] at h
        cases h
        simp [ih bs hl]

theorem split_ne_nil (s : String) (ts : List String)
    (h : split_grass_command s = .ok ts) : ts ≠ [] := by
  have hlen := mapM_ok_length fixToken (spaceSplit s) ts h
  intro hnil
  rw [hnil, spaceSplit, strSplit] at hlen
  simp at hlen

/-- C4 (amended): re-joining the tokens of a command line with single
spaces and re-tokenizing returns the same token sequence whenever each
produced token is free of spaces, has an even number of quote
characters, and is itself left unchanged by the token rewrite.  In
general the property fails, because stripping the quotes of a value
removes the protection of its internal spaces (see the
counterexample). -/
theorem split_grass_command_idem (s : String) (ts : List String)
    (hts : split_grass_command s = .ok ts)
    (hsp : ∀ t ∈ ts, ∀ c ∈ t.data, c ≠ ' ')
    (hev : ∀ t ∈ ts, qcount t.data % 2 = 0)
    (hfix : ∀ t ∈ ts, fixToken t = .ok t) :
    split_grass_command (joinSpace ts) = .ok ts := by
  obtain ⟨t, ts', rfl⟩ : ∃ t ts', ts = t :: ts' := by
    cases ts with
    | nil => exact absurd rfl (split_ne_nil s [] hts)
    | cons t ts' => exact ⟨t, ts', rfl⟩
  rw [split_grass_command, spaceSplit_joinSpace t ts' hsp hev]
  exact mapM_ok_of_id fixToken _ hfix

/-- C4 counterexample: the specification example itself violates
idempotence: the mapcalc command tokenizes to two tokens, but joining
them with single spaces and re-tokenizing splits the formerly quoted
value at each of its internal spaces. -/
theorem split_grass_command_not_idem :
    split_grass_command "r.mapcalc expression=\"a = b + 1\"" =
      .ok ["r.mapcalc", "expression=a = b + 1"] ∧
    split_grass_command (joinSpace ["r.mapcalc", "expression=a = b + 1"]) =
      .ok ["r.mapcalc", "expression=a", "=", "b", "+", "1"] ∧
    (["r.mapcalc", "expression=a", "=", "b", "+", "1"] : List String) ≠
      ["r.mapcalc", "expression=a = b + 1"] :=
  ⟨rfl, rfl, by decide⟩

/-- C4 witness: the g.region example is idempotent, its tokens being
space-free, quote-balanced fixpoints of the rewrite. -/
theorem split_grass_command_idem_witness :
    split_grass_command "g.region raster=elevation -p" =
      .ok ["g.region", "raster=elevation", "-p"] ∧
    split_grass_command (joinSpace ["g.region", "raster=elevation", "-p"]) =
      .ok ["g.region", "raster=elevation", "-p"] :=
  ⟨rfl, split_grass_command_idem "g.region raster=elevation -p"
    ["g.region", "raster=elevation", "-p"] rfl (by decide) (by decide)
    (fun t ht => by
      fin_cases ht <;> rfl)⟩

theorem string_eq_empty_of_data (b : String) (h : b.data = []) : b = "" := by
  rw [← strMk_data b, h]

/-- C10: on a token holding an equals sign and a quote character, the
token rewrite returns normally exactly when the equals split yields two
parts (one unquoted equals sign) with a non-empty value; a count of
unquoted equals signs other than one raises the tuple-unpacking fault,
and an empty value raises the indexing fault. -/
theorem fixToken_partiality (t : String)
    (h1 : '=' ∈ t.data) (h2 : squo ∈ t.data ∨ dquo ∈ t.data) :
    (numUnquotedEq t ≠ 1 → fixToken t = .error .unpackFault) ∧
    (∀ par, eqSplit t = [par, ""] → fixToken t = .error .indexFault) ∧
    ((∃ r, fixToken t = .ok r) ↔
      (numUnquotedEq t = 1 ∧ ∃ par val, eqSplit t = [par, val] ∧ val ≠ "")) := by
  have hguard : '=' ∈ t.data ∧ (squo ∈ t.data ∨ dquo ∈ t.data) := ⟨h1, h2⟩
  have hlen := eqSplit_length t
  rcases hE : eqSplit t with _ | ⟨a, _ | ⟨b, _ | ⟨c, rest⟩⟩⟩
  · rw [hE] at hlen
    simp at hlen
  · rw [hE] at hlen
    have hnum : numUnquotedEq t = 0 := by simpa using hlen.symm
    have hfx : fixToken t = .error .unpackFault := by
      rw [fixToken, if_pos hguard, hE]
    refine ⟨fun _ => hfx, fun par hpar => ?_, ?_⟩
    · simp at hpar
    · constructor
      · rintro ⟨r, hr⟩
        rw [hfx] at hr
        cases hr
      · rintro ⟨hnum1, -⟩
        omega
  · rw [hE] at hlen
    have hnum : numUnquotedEq t = 1 := by simpa using hlen.symm
    by_cases hb : b = ""
    · subst hb
      have hfx : fixToken t = .error .indexFault := by
        rw [fixToken, if_pos hguard, hE]
        rfl
      refine ⟨fun hc => absurd hnum hc, fun par hpar => hfx, ?_⟩
      constructor
      · rintro ⟨r, hr⟩
        rw [hfx] at hr
        cases hr
      · rintro ⟨-, par, val, hpv, hval⟩
        simp only [List.cons.injEq, and_true] at hpv
        exact absurd hpv.2.symm hval
    · have hfx : ∃ r, fixToken t = .ok r := by
        rw [fixToken, if_pos hguard, hE]
        split
        next par val h' =>
          injection h' with ha h'
          injection h' with hbv h'
          subst ha
          subst hbv
          split
          next hlast =>
            exact absurd
              (string_eq_empty_of_data b (List.getLast?_eq_none_iff.mp hlast)) hb
          next l hlast =>
            split
            · exact ⟨_, rfl⟩
            · exact ⟨_, rfl⟩
        next h' =>
          exact absurd rfl (h' a b)
      refine ⟨fun hc => absurd hnum hc, fun par hpar => ?_, ?_⟩
      · simp only [List.cons.injEq, and_true] at hpar
        exact absurd hpar.2 hb
      · exact ⟨fun _ => ⟨hnum, a, b, rfl, hb⟩, fun _ => hfx⟩
  · rw [hE] at hlen
    have hnum : numUnquotedEq t = rest.length + 2 := by
      simp at hlen
      omega
    have hfx : fixToken t = .error .unpackFault := by
      rw [fixToken, if_pos hguard, hE]
    refine ⟨fun _ => hfx, fun par hpar => ?_, ?_⟩
    · simp at hpar
    · constructor
      · rintro ⟨r, hr⟩
        rw [hfx] at hr
        cases hr
      · rintro ⟨hnum1, -⟩
        omega

/-- C10 witness: a token with two unquoted equals signs faults on
unpacking, and a token with one unquoted equals sign but empty value
faults on indexing. -/
theorem fixToken_partiality_witness :
    fixToken "a=b=c\"\"" = .error .unpackFault ∧
    fixToken "\"a\"=" = .error .indexFault :=
  ⟨(fixToken_partiality "a=b=c\"\"" (by decide) (by decide)).1 (by decide),
   (fixToken_partiality "\"a\"=" (by decide) (by decide)).2.1 "\"a\"" (by decide)⟩

theorem pollLoop_ok_pos :
    ∀ (l : List (Option Snapshot)) (p : Nat × Snapshot),
      pollLoop l = .ok p → 1 ≤ p.1 := by
  intro l
  induction l with
  | nil => intro p h; cases h
  | cons o l ih =>
    intro p h
    cases o with
    | none => cases h
    | some snap =>
      simp only [pollLoop] at h
      split at h
      · cases h
        simp
      · split at h
        next q heq => cases h; simp
        next e heq => cases h

theorem pollLoop_ok_iff (ss : List Snapshot) (n : Nat) (snap : Snapshot) :
    pollLoop (ss.map Option.some) = .ok (n + 1, snap) ↔
      (ss[n]? = some snap ∧ isTerminal snap.status = true ∧
       ∀ s ∈ ss.take n, isTerminal s.status = false) := by
  induction ss generalizing n with
  | nil => simp [pollLoop]
  | cons s ss ih =>
    rw [List.map_cons]
    by_cases h : isTerminal s.status = true
    · simp only [pollLoop]
      rw [if_pos h]
      cases n with
      | zero =>
        simp only [List.getElem?_cons_zero, List.take_zero]
        constructor
        · intro hEq
          injection hEq with hp
          injection hp with hp1 hp2
          subst hp2
          exact ⟨rfl, h, by simp⟩
        · rintro ⟨hsnap, -, -⟩
          injection hsnap with hsnap
          subst hsnap
          rfl
      | succ n =>
        simp only [List.getElem?_cons_succ, List.take_succ_cons]
        constructor
        · intro hEq
          exfalso
          injection hEq with hp
          injection hp with hp1 hp2
          omega
        · rintro ⟨-, -, hall⟩
          have hs := hall s (by simp)
          rw [h] at hs
          cases hs
    · have h' : isTerminal s.status = false := by simpa using h
      simp only [pollLoop]
      rw [if_neg h]
      cases n with
      | zero =>
        simp only [List.getElem?_cons_zero, List.take_zero]
        constructor
        · intro hEq
          exfalso
          split at hEq
          next q heq =>
            injection hEq with hp
            injection hp with hp1 hp2
            have := pollLoop_ok_pos _ _ heq
            omega
          next e heq => cases hEq
        · rintro ⟨hsnap, hterm, -⟩
          injection hsnap with hsnap
          subst hsnap
          rw [hterm] at h'
          cases h'
      | succ n =>
        simp only [List.getElem?_cons_succ, List.take_succ_cons]
        constructor
        · intro hEq
          split at hEq
          next q heq =>
            injection hEq with hp
            obtain ⟨q1, q2⟩ := q
            injection hp with hp1 hp2
            simp only at hp1 hp2
            subst hp2
            have hq1 : q1 = n + 1 := by omega
            subst hq1
            obtain ⟨hget, hterm, hall⟩ := (ih n).mp heq
            exact ⟨hget, hterm, fun x hx => by
              rcases List.mem_cons.mp hx with hx | hx
              · subst hx; exact h'
              · exact hall x hx⟩
          next e heq => cases hEq
        · rintro ⟨hget, hterm, hall⟩
          have hrec := (ih n).mpr ⟨hget, hterm, fun x hx => hall x (by simp [hx])⟩
          rw [hrec]

/-- C1: the polling loop stops exactly at the first terminal snapshot
of the scripted responses, issuing one poll per preceding non-terminal
snapshot plus one for the terminal one; in particular running, running,
finished takes exactly 3 polls and returns the finished snapshot, and
running, error takes exactly 2 polls and returns the error snapshot
with no client-side fault. -/
theorem pollLoop_spec :
    (∀ (ss : List Snapshot) (n : Nat) (snap : Snapshot),
       pollLoop (ss.map Option.some) = .ok (n + 1, snap) ↔
         (ss[n]? = some snap ∧ isTerminal snap.status = true ∧
          ∀ s ∈ ss.take n, isTerminal s.status = false)) ∧
    pollLoop [some runSnap, some runSnap, some finSnap] = .ok (3, finSnap) ∧
    pollLoop [some runSnap, some errSnap] = .ok (2, errSnap) :=
  ⟨pollLoop_ok_iff, rfl, rfl⟩

/-- C2 (amended): for a submission response with status code outside
200 and 201 the client always aborts fatally; the fatal text carries
the message field of the body when the body parses and has one, and
the raw body text when the body does not parse; when the body parses
but has no message field the fatal text is only the fixed prefix with
the url, with no body text in it. -/
theorem submissionFatal_spec (url : String) (r : PostResponse)
    (h : ¬(r.status_code = 200 ∨ r.status_code = 201)) :
    (∀ data m, r.parsed = some data → lookupField data "message" = some m →
       ∃ fm, submissionFatal url r = some fm ∧ containsStr m fm) ∧
    (r.parsed = none →
       ∃ fm, submissionFatal url r = some fm ∧ containsStr r.text fm) ∧
    (∀ data, r.parsed = some data → lookupField data "message" = none →
       submissionFatal url r = some ("ERROR posting to url " ++ squos ++ url ++ squos)) := by
  refine ⟨?_, ?_, ?_⟩
  · intro data m hp hm
    refine ⟨"ERROR posting to url " ++ squos ++ url ++ squos ++ (": " ++ m), ?_, ?_⟩
    · rw [submissionFatal, if_neg h, hp, submissionMsg, hm, msgPart]
    · refine ⟨("ERROR posting to url " ++ squos ++ url ++ squos ++ ": ").data, [], ?_⟩
      simp [String.data_append]
  · intro hp
    refine ⟨"ERROR posting to url " ++ squos ++ url ++ squos ++ r.text, ?_, ?_⟩
    · rw [submissionFatal, if_neg h, hp, submissionMsg]
    · refine ⟨("ERROR posting to url " ++ squos ++ url ++ squos).data, [], ?_⟩
      simp [String.data_append]
  · intro data hp hm
    rw [submissionFatal, if_neg h, hp, submissionMsg, hm, msgPart]
    simp

/-- C2 counterexample: a 400 response whose body parses but has no
message field produces a fatal text that holds neither the message nor
the raw body: the claim that the raw body text is then the error
message fails. -/
theorem submissionFatal_cex :
    submissionFatal "u" ⟨400, "BODYTEXT", some [("detail", "x")]⟩ =
      some ("ERROR posting to url " ++ squos ++ "u" ++ squos) ∧
    ¬ containsStr "BODYTEXT" ("ERROR posting to url " ++ squos ++ "u" ++ squos) :=
  ⟨rfl, by decide⟩

/-- C2 witness: a 404 response with a parsed message field aborts with
a fatal text carrying that message. -/
theorem submissionFatal_spec_witness :
    ¬((404 : Nat) = 200 ∨ (404 : Nat) = 201) ∧
    (∃ fm, submissionFatal "u" ⟨404, "oops", some [("message", "bad request")]⟩ =
        some fm ∧ containsStr "bad request" fm) :=
  ⟨by decide,
   (submissionFatal_spec "u" ⟨404, "oops", some [("message", "bad request")]⟩
     (by decide)).1 [("message", "bad request")] "bad request" rfl rfl⟩

theorem buildChain_go (acc : List Proc) (ops : List Proc)
    (h : ∀ p ∈ ops, p ≠ []) :
    (ops.map Option.some).foldl appendProc acc = acc ++ ops := by
  induction ops generalizing acc with
  | nil => simp
  | cons p ops ih =>
    rw [List.map_cons, List.foldl_cons]
    have hp : appendProc acc (some p) = acc ++ [p] := by
      rw [appendProc, if_neg (h p (by simp))]
    rw [hp, ih (acc ++ [p]) (fun x hx => h x (by simp [hx]))]
    simp

/-- C6: appending the compile results of N commands that all produced
non-empty operation descriptions yields a chain list of length N in
submission order, and appending an absent or empty operation leaves
the chain unchanged. -/
theorem buildChain_spec :
    (∀ ops : List Proc, (∀ p ∈ ops, p ≠ []) →
       buildChain (ops.map Option.some) = ops) ∧
    (∀ (chain : List Proc) (p : Option Proc), (p = none ∨ p = some []) →
       appendProc chain p = chain) := by
  constructor
  · intro ops h
    rw [buildChain, buildChain_go [] ops h]
    simp
  · rintro chain p (rfl | rfl)
    · rfl
    · rw [appendProc, if_pos rfl]

/-- C6 witness: two non-empty operations build a two-element chain in
order, and appending an absent operation changes nothing. -/
theorem buildChain_spec_witness :
    buildChain ([[("module", "g.region")], [("module", "r.univar")]].map Option.some) =
      [[("module", "g.region")], [("module", "r.univar")]] ∧
    appendProc [[("module", "g.region")]] none = [[("module", "g.region")]] :=
  ⟨buildChain_spec.1 [[("module", "g.region")], [("module", "r.univar")]] (by decide),
   buildChain_spec.2 [[("module", "g.region")]] none (Or.inl rfl)⟩

/-- C7: the operation compiler skips an empty token sequence (no
operation, no error), rejects any token sequence holding the help
flag, and on a non-zero exit of the executable raises an error whose
message carries both captured streams. -/
theorem create_actinia_process_spec (run : List String → ExecResult)
    (parseJson : String → Option Proc) :
    (create_actinia_process run parseJson [] = .ok none) ∧
    (∀ command : List String, "--help" ∈ command →
       ∃ m, create_actinia_process run parseJson command =
         .error (.helpNotAllowed m)) ∧
    (∀ command : List String, command ≠ [] → "--help" ∉ command →
       (run (withJson command)).returncode ≠ 0 →
       ∃ m, create_actinia_process run parseJson command = .error (.execFailed m) ∧
         containsStr (run (withJson command)).stdout m ∧
         containsStr (run (withJson command)).stderr m) := by
  refine ⟨rfl, ?_, ?_⟩
  · intro command hmem
    have hne : command ≠ [] := by
      rintro rfl
      cases hmem
    rw [create_actinia_process, if_neg hne, if_pos hmem]
    exact ⟨_, rfl⟩
  · intro command hne hhelp hrc
    refine ⟨"Error while executing GRASS command: " ++ listStr (withJson command) ++
      ". \n" ++ "\n" ++ (run (withJson command)).stdout ++ "\n" ++
      (run (withJson command)).stderr ++ "\n", ?_, ?_, ?_⟩
    · rw [create_actinia_process, if_neg hne, if_neg hhelp]
      simp only [hrc, ne_eq, not_false_eq_true, if_true]
    · refine ⟨("Error while executing GRASS command: " ++ listStr (withJson command) ++
        ". \n" ++ "\n").data, ("\n" ++ (run (withJson command)).stderr ++ "\n").data, ?_⟩
      simp [String.data_append]
    · refine ⟨("Error while executing GRASS command: " ++ listStr (withJson command) ++
        ". \n" ++ "\n" ++ (run (withJson command)).stdout ++ "\n").data, ("\n" : String).data, ?_⟩
      simp [String.data_append]

/-- C7 witness: with a stub executable that exits 1 with streams OUT
and ERR, compiling g.region raises an execution error whose message
carries both streams. -/
theorem create_actinia_process_spec_witness :
    ∃ m, create_actinia_process (fun _ => ⟨1, "OUT", "ERR"⟩) (fun _ => none)
        ["g.region"] = .error (.execFailed m) ∧
      containsStr "OUT" m ∧ containsStr "ERR" m := by
  have h := (create_actinia_process_spec (fun _ => ⟨1, "OUT", "ERR"⟩)
    (fun _ => none)).2.2 ["g.region"] (by decide) (by decide) (by decide)
  simpa using h

theorem walkLog_noFault (l : List StepLog) (h : ∀ e ∈ l, e.stderr ≠ []) :
    walkLog l = (logOutputs l, false) := by
  induction l with
  | nil => rfl
  | cons e rest ih =>
    cases hE : e.stderr with
    | nil => exact absurd hE (h e (by simp))
    | cons s0 tl =>
      rw [walkLog, hE, ih (fun x hx => h x (by simp [hx]))]
      rw [logOutputs, stepOutputs, hE]

/-- C8: on a final poll response with HTTP status 200, a terminated
snapshot prints only the raw body with no log walking, while a
finished or error snapshot whose steps all have non-empty stderr lists
prints the per-step outputs in order followed by the urls mapping. -/
theorem reportResult_spec (text : String) (data : Snapshot) :
    (data.status = "terminated" →
       reportResult 200 text data = ([Output.raw text], false)) ∧
    (data.status ≠ "terminated" → (∀ e ∈ data.process_log, e.stderr ≠ []) →
       reportResult 200 text data =
         (logOutputs data.process_log ++ [Output.urlsDump data.urls], false)) := by
  constructor
  · intro hterm
    rw [reportResult, if_pos rfl, if_pos hterm]
  · intro hterm hstderr
    rw [reportResult, if_pos rfl, if_neg hterm, walkLog_noFault data.process_log hstderr]
    simp

/-- C8 witness: a terminated snapshot prints the raw body, and a
finished snapshot with well-formed stderr lists prints the step
outputs and then the urls. -/
theorem reportResult_spec_witness :
    reportResult 200 "RAW" ⟨"terminated", "m", [⟨"o", ["e"]⟩], [("u", "v")]⟩ =
      ([Output.raw "RAW"], false) ∧
    reportResult 200 "RAW" ⟨"finished", "m", [⟨"o1", ["e1"]⟩, ⟨"", [""]⟩], [("u", "v")]⟩ =
      (logOutputs [⟨"o1", ["e1"]⟩, ⟨"", [""]⟩] ++ [Output.urlsDump [("u", "v")]], false) :=
  ⟨(reportResult_spec "RAW" ⟨"terminated", "m", [⟨"o", ["e"]⟩], [("u", "v")]⟩).1 rfl,
   (reportResult_spec "RAW" ⟨"finished", "m", [⟨"o1", ["e1"]⟩, ⟨"", [""]⟩], [("u", "v")]⟩).2
     (by decide) (by decide)⟩

theorem walkLog_fault_iff (l : List StepLog) :
    (walkLog l).2 = false ↔ ∀ e ∈ l, e.stderr ≠ [] := by
  induction l with
  | nil => simp [walkLog]
  | cons e rest ih =>
    cases hE : e.stderr with
    | nil =>
      rw [walkLog, hE]
      simp only [List.mem_cons]
      constructor
      · intro hc
        cases hc
      · intro hall
        exact absurd hE (hall e (Or.inl rfl))
    | cons s0 tl =>
      rw [walkLog, hE]
      simp only [List.mem_cons]
      constructor
      · intro hc x hx
        rcases hx with hx | hx
        · subst hx
          simp [hE]
        · exact ih.mp hc x hx
      · intro hall
        exact ih.mpr (fun x hx => hall x (Or.inr hx))

theorem walkLog_fault_at (pre : List StepLog) (bad : StepLog)
    (post : List StepLog) (hpre : ∀ e ∈ pre, e.stderr ≠ [])
    (hbad : bad.stderr = []) :
    walkLog (pre ++ bad :: post) =
      (logOutputs pre ++
        (if bad.stdout ≠ "" then [Output.stdoutLine bad.stdout] else []), true) := by
  induction pre with
  | nil =>
    rw [List.nil_append, walkLog, hbad, logOutputs, List.nil_append]
  | cons e pre ih =>
    cases hE : e.stderr with
    | nil => exact absurd hE (hpre e (by simp))
    | cons s0 tl =>
      rw [List.cons_append, walkLog, hE, ih (fun x hx => hpre x (by simp [hx]))]
      rw [logOutputs, stepOutputs, hE]
      simp [List.append_assoc]

/-- C9: on a finished or error final snapshot the reporter indexes the
first stderr element of every step: it completes without fault exactly
when every step has a non-empty stderr list, and a step with an empty
stderr list faults right after that step, printing neither the later
steps nor the urls mapping. -/
theorem reportResult_faults (text : String) (data : Snapshot)
    (hst : data.status = "finished" ∨ data.status = "error") :
    ((reportResult 200 text data).2 = false ↔
       ∀ e ∈ data.process_log, e.stderr ≠ []) ∧
    (∀ pre bad post, data.process_log = pre ++ bad :: post →
       (∀ e ∈ pre, e.stderr ≠ []) → bad.stderr = [] →
       reportResult 200 text data =
         (logOutputs pre ++
           (if bad.stdout ≠ "" then [Output.stdoutLine bad.stdout] else []), true)) := by
  have hterm : data.status ≠ "terminated" := by
    rcases hst with h | h <;> rw [h] <;> decide
  constructor
  · rw [reportResult, if_pos rfl, if_neg hterm]
    by_cases hf : (walkLog data.process_log).2 = true
    · rw [if_pos hf]
      simp only [hf]
      constructor
      · intro hc
        cases hc
      · intro hall
        rw [(walkLog_fault_iff data.process_log).mpr hall] at hf
        cases hf
    · rw [if_neg hf]
      simp only [Bool.not_eq_true] at hf
      simp only [hf]
      simpa using (walkLog_fault_iff data.process_log).mp hf
  · intro pre bad post hlog hpre hbad
    rw [reportResult, if_pos rfl, if_neg hterm, hlog,
      walkLog_fault_at pre bad post hpre hbad]
    rw [if_pos rfl]

/-- C9 witness: an error snapshot whose second step has an empty stderr
list makes the reporter fault after printing the first step and the
stdout of the faulting step, with no urls output. -/
theorem reportResult_faults_witness :
    reportResult 200 "RAW" ⟨"error", "m", [⟨"o1", ["e1"]⟩, ⟨"bo", []⟩], [("u", "v")]⟩ =
      (logOutputs [⟨"o1", ["e1"]⟩] ++ [Output.stdoutLine "bo"], true) := by
  have h := (reportResult_faults "RAW"
    ⟨"error", "m", [⟨"o1", ["e1"]⟩, ⟨"bo", []⟩], [("u", "v")]⟩ (Or.inr rfl)).2
    [⟨"o1", ["e1"]⟩] ⟨"bo", []⟩ [] rfl (by decide) rfl
  simpa using h

end Ace
